import Mathlib

/-!
Shallow embedding of the DSP core of the `nih-reverb` repository
(`src/src/delay.rs`, `src/src/householder.rs`, `src/src/hadamard.rs`,
`src/src/biquad.rs`, `src/src/pitch.rs`, `src/src/lib.rs`).

`f32` lane-vector arithmetic is modelled exactly over `ℚ` (the claims under
study speak about exact values); a SIMD vector of `L` lanes is a function
`Fin L → ℚ` with pointwise operations.  A Rust method taking `&mut self`
is translated to a function returning the (possibly unchanged) state, and a
computation that can panic (out-of-bounds indexing) returns `Option`,
`none` marking the panic.
-/

/-- A SIMD lane-vector `Simd<f32, L>`, modelled as a tuple of `L` exact
rationals with pointwise arithmetic. -/
abbrev Val (L : ℕ) := Fin L → ℚ

/-- `Simd::splat(c)`: the lane-vector with every lane equal to `c`. -/
def splat (L : ℕ) (c : ℚ) : Val L := fun _ => c

/-- Truncation toward zero, as Rust's `f32::trunc` / the integral part used
by the `%` operator on floats. -/
def ratTrunc (q : ℚ) : ℤ := if 0 ≤ q then ⌊q⌋ else ⌈q⌉

/-- Rust's `%` on floats: `x % y = x - y * trunc(x / y)` (remainder with the
sign of the dividend). -/
def rustRem (x y : ℚ) : ℚ := x - y * (ratTrunc (x / y) : ℚ)

/-- `Delay<Simd<f32, L>>` from `src/src/delay.rs`: a `VecDeque` buffer,
front at index 0. -/
structure Delay (L : ℕ) where
  buffer : List (Val L)
deriving DecidableEq

namespace Delay

variable {L : ℕ}

/-- `Delay::new(max_delay)`: a buffer of `max_delay` default (zero)
lane-vectors. -/
def new (L cap : ℕ) : Delay L :=
  { buffer := List.replicate cap 0 }

/-- `Delay::len`. -/
def len (d : Delay L) : ℕ := d.buffer.length

/-- `Delay::push_next(next)`: `pop_back` (drop the last element) then
`push_front next`. -/
def push_next (d : Delay L) (next : Val L) : Delay L :=
  { buffer := next :: d.buffer.dropLast }

/-- `Delay::sample(i)`: zero when the buffer is empty, otherwise
`buffer[i.clamp(0, len)]`; indexing at `len` is out of bounds and panics
(`none`). -/
def sample (d : Delay L) (i : ℕ) : Option (Val L) :=
  if d.buffer.isEmpty then some 0
  else d.buffer.get? (min i d.buffer.length)

end Delay

/-- `cubic(t, p)` from `src/src/delay.rs`: the 4-point cubic interpolation
kernel, with `t` splatted across lanes. -/
def cubic {L : ℕ} (t : ℚ) (p : Fin 4 → Val L) : Val L :=
  let t' := splat L t
  let half := splat L (1/2)
  let two := splat L 2
  let three := splat L 3
  let four := splat L 4
  let five := splat L 5
  p 1 + half * t' *
    (p 2 - p 0 + t' * (two * p 0 - five * p 1 + four * p 2 - p 3
      + t' * (three * (p 1 - p 2) + p 3 - p 0)))

namespace Delay

variable {L : ℕ}

/-- `Delay::tap(pos)` from `src/src/delay.rs` (cubic-interpolation variant):
wrap `pos` into the buffer via `(pos + len) % len`, take `ix = floor` (the
`as usize` cast saturates negatives to 0), `f = fract`, read the four anchors
`ix-2, ix-1, ix, ix+1` through `sample` (`usize` subtraction saturating), and
interpolate.  The method takes `&mut self` but performs no write, so the
returned state is the input state; a panicking anchor read yields `none`. -/
def tap (d : Delay L) (pos : ℚ) : Option (Val L × Delay L) :=
  let len : ℚ := (d.buffer.length : ℚ)
  let pos2 := rustRem (pos + len) len
  let ix : ℕ := (⌊pos2⌋).toNat
  let f : ℚ := pos2 - (ratTrunc pos2 : ℚ)
  match d.sample (ix - 2), d.sample (ix - 1), d.sample ix, d.sample (ix + 1) with
  | some a0, some a1, some b0, some b1 => some (cubic f ![a0, a1, b0, b1], d)
  | _, _, _, _ => none

/-- `Delay::get(pos)` from `src/src/delay.rs`: lane `i` of the result is lane
`i` of `tap(pos[i])`; any panicking tap aborts the call.  No write occurs, so
the returned state is the input state. -/
def get (d : Delay L) (pos : Val L) : Option (Val L × Delay L) :=
  if h : ∀ i : Fin L, (d.tap (pos i)).isSome then
    some (fun i => ((d.tap (pos i)).get (h i)).1 i, d)
  else none

end Delay

/-- `transform` from `src/src/householder.rs`: `s = sum(v) * (-2 / L)`,
then every lane is incremented by `s`. -/
def Householder.transform {L : ℕ} (v : Val L) : Val L :=
  fun i => v i + (∑ j, v j) * (-2 / (L : ℚ))

namespace Hadamard

/-- One butterfly of `fwht` (`src/src/hadamard.rs` inner loop body):
`a[j], a[j+h] := a[j] + a[j+h], a[j] - a[j+h]`.  The lane-vector is modelled
as a function on `ℕ` (indices `≥ L` are unused by `fwht`). -/
def butterfly (h j : ℕ) (a : ℕ → ℚ) : ℕ → ℚ :=
  let x := a j
  let y := a (j + h)
  Function.update (Function.update a j (x + y)) (j + h) (x - y)

/-- The loop `for j in i..i + h` of `fwht`. -/
def innerPass (h i : ℕ) (a : ℕ → ℚ) : ℕ → ℚ :=
  (List.range h).foldl (fun acc t => butterfly h (i + t) acc) a

/-- The loop `for i in (0..L).step_by(h * 2)` of `fwht`: the visited values
are `i = 2*h*t` for `t < ⌈L / (2*h)⌉`. -/
def midPass (L h : ℕ) (a : ℕ → ℚ) : ℕ → ℚ :=
  (List.range ((L + 2 * h - 1) / (2 * h))).foldl
    (fun acc t => innerPass h (2 * h * t) acc) a

/-- The `while h < L` loop of `fwht`, with `h` doubling each iteration.
`fuel = L` iterations always suffice (`h` starts at 1 and doubles). -/
def fwhtLoop (L : ℕ) : ℕ → ℕ → (ℕ → ℚ) → (ℕ → ℚ)
  | 0, _, a => a
  | fuel + 1, h, a => if h < L then fwhtLoop L fuel (h * 2) (midPass L h a) else a

/-- `fwht` from `src/src/hadamard.rs`: the in-place Walsh–Hadamard butterfly
transform over `L` lanes. -/
def fwht (L : ℕ) (a : ℕ → ℚ) : ℕ → ℚ := fwhtLoop L L 1 a

end Hadamard

/-- Sum of squares of the first `L` lanes (`|v|²`, the quantity the spec's
energy-preservation properties are about). -/
def energy (L : ℕ) (a : ℕ → ℚ) : ℚ := ∑ i ∈ Finset.range L, (a i) ^ 2

/-- `BiquadParams` from `src/src/biquad.rs`: feedback coefficients
`a = [a1, a2]` and feed-forward coefficients `b = [b0, b1, b2]`. -/
structure BiquadParams (L : ℕ) where
  a : Fin 2 → Val L
  b : Fin 3 → Val L

namespace BiquadParams

/-- `BiquadParams::default()`: identity filter. -/
def default (L : ℕ) : BiquadParams L :=
  { a := ![0, 0], b := ![1, 0, 0] }

/-- `BiquadParams::lowpass_1p(fc, q)` from `src/src/biquad.rs`.  The source
computes `k = tan(fc / 2)` with the `f32` tangent; that transcendental value
is taken here as the extra parameter `k`, theorems quantify over an interval
containing it.  `q` is unused, as in the source.  `a1 = -(1 - fc) / (1 + k)`,
`b0 = b1 = k / (1 + k)`, `a2 = b2 = 0`. -/
def lowpass_1p (L : ℕ) (fc q k : ℚ) : BiquadParams L :=
  { a := ![splat L (-(1 - fc) / (1 + k)), splat L 0],
    b := ![splat L (k / (1 + k)), splat L (k / (1 + k)), splat L 0] }

/-- `BiquadParams::highpass_1p(fc, q)` from `src/src/biquad.rs`, with the
same convention for `k = tan(fc / 2)`: `a1 = -(1 - fc) / (1 + k)`,
`b0 = 1 / (1 + k)`, `b1 = -1 / (1 + k)`, `a2 = b2 = 0`. -/
def highpass_1p (L : ℕ) (fc q k : ℚ) : BiquadParams L :=
  { a := ![splat L (-(1 - fc) / (1 + k)), splat L 0],
    b := ![splat L (1 / (1 + k)), splat L (-1 / (1 + k)), splat L 0] }

end BiquadParams

/-- `Biquad` from `src/src/biquad.rs`: parameters plus two history cells. -/
structure Biquad (L : ℕ) where
  params : BiquadParams L
  state : Fin 2 → Val L

namespace Biquad

/-- `Biquad::new(params)`: zeroed state. -/
def new (L : ℕ) (params : BiquadParams L) : Biquad L :=
  { params := params, state := ![0, 0] }

/-- `Biquad::next_sample(input)` from `src/src/biquad.rs` (transposed
direct-form II).  Returns the output together with the updated filter. -/
def next_sample (bq : Biquad L) (input : Val L) : Val L × Biquad L :=
  let out := bq.state 0 + bq.params.b 0 * input
  let s0 := bq.state 1 + bq.params.b 1 * input - bq.params.a 0 * out
  let s1 := bq.params.b 2 * input - bq.params.a 1 * out
  (out, { bq with state := ![s0, s1] })

/-- Iterate `next_sample` on a constant input `n` times, keeping the filter
state (how the repository's step-response test drives the filter). -/
def drive (bq : Biquad L) (input : Val L) : ℕ → Biquad L
  | 0 => bq
  | n + 1 => ((bq.drive input n).next_sample input).2

end Biquad

/-- The feedback-and-damping prefix of `Reverb::next_sample` from
`src/src/lib.rs`:
`delayed = sample + tapped * feedback` (with `tapped` the value read from the
feedback delay), then `delayed = damp_low.next_sample(delayed)`, then
`delayed = damp_high.next_sample(delayed)`.  Returns the damped signal and
the two updated filters. -/
def dampStage (damp_low damp_high : Biquad 2) (sample tapped : Val 2)
    (feedback : ℚ) : Val 2 × Biquad 2 × Biquad 2 :=
  let delayed := sample + tapped * splat 2 feedback
  let r1 := damp_low.next_sample delayed
  let r2 := damp_high.next_sample r1.1
  (r2.1, r1.2, r2.2)

/-- `PitchShifter` from `src/src/pitch.rs`. -/
structure PitchShifter (L : ℕ) where
  buffer : Delay L
  pos : ℚ

namespace PitchShifter

/-- `PitchShifter::new(max_delay)`. -/
def new (L cap : ℕ) : PitchShifter L :=
  { buffer := Delay.new L cap, pos := 0 }

/-- `PitchShifter::next_sample(samplerate, pitch, input)` from
`src/src/pitch.rs`: `out = buffer.tap(pos)`, `pos += pitch`, subtract the
buffer length once when `pos` exceeds it, then `buffer.push_next(input)`.
`none` when the tap panics. -/
def next_sample (ps : PitchShifter L) (samplerate pitch : ℚ) (input : Val L) :
    Option (Val L × PitchShifter L) :=
  match ps.buffer.tap ps.pos with
  | none => none
  | some (out, buf) =>
    let pos2 := ps.pos + pitch
    let pos3 := if pos2 > (buf.buffer.length : ℚ) then
        pos2 - (buf.buffer.length : ℚ) else pos2
    some (out, { buffer := buf.push_next input, pos := pos3 })

/-- Feed a list of inputs through `next_sample`, returning the final state,
or `none` as soon as one call panics. -/
def run (ps : PitchShifter L) (samplerate pitch : ℚ) :
    List (Val L) → Option (PitchShifter L)
  | [] => some ps
  | x :: xs =>
    match ps.next_sample samplerate pitch x with
    | none => none
    | some (_, ps2) => ps2.run samplerate pitch xs

end PitchShifter

/-- One user-visible operation on a `Delay` (the operations claim C9 ranges
over). -/
inductive DelayOp (L : ℕ) where
  | push (v : Val L)
  | tapAt (pos : ℚ)
  | getAt (pos : Val L)

/-- The state left by one operation: `push_next` rewrites the buffer; `tap`
and `get` return the state unchanged (when they panic the state is the
pre-call one). -/
def DelayOp.apply (d : Delay L) : DelayOp L → Delay L
  | .push v => d.push_next v
  | .tapAt pos => ((d.tap pos).map Prod.snd).getD d
  | .getAt pos => ((d.get pos).map Prod.snd).getD d

/-- Run a sequence of delay-line operations. -/
def Delay.runOps (d : Delay L) (ops : List (DelayOp L)) : Delay L :=
  ops.foldl DelayOp.apply d

section DelayLemmas

variable {L : ℕ}

theorem splat_zero : splat L 0 = 0 := rfl

/-- The cubic kernel at fractional part `0` returns the second anchor. -/
theorem cubic_at_zero (p : Fin 4 → Val L) : cubic 0 p = p 1 := by
  show p 1 + splat L (1/2) * splat L 0 * _ = p 1
  rw [splat_zero]
  ring

theorem ratTrunc_eq_floor {q : ℚ} (h : 0 ≤ q) : ratTrunc q = ⌊q⌋ := if_pos h

/-- The wrap step of `Delay::tap`: for an in-range nonnegative position,
`(pos + len) % len = pos`. -/
theorem rustRem_add_self {x y : ℚ} (h0 : 0 ≤ x) (hlt : x < y) :
    rustRem (x + y) y = x := by
  have hy : 0 < y := lt_of_le_of_lt h0 hlt
  have hdiv : (x + y) / y = x / y + 1 := by field_simp
  have h01 : 0 ≤ x / y := div_nonneg h0 hy.le
  have h1 : x / y < 1 := (div_lt_one hy).mpr hlt
  have hfloor : ⌊(x + y) / y⌋ = 1 := by
    rw [hdiv, Int.floor_add_one, Int.floor_eq_zero_iff.mpr ⟨h01, h1⟩]
    omega
  have htr : ratTrunc ((x + y) / y) = 1 := by
    rw [ratTrunc_eq_floor (by positivity), hfloor]
  simp only [rustRem, htr]
  push_cast
  ring

theorem sample_in_range (d : Delay L) {i : ℕ} (h : i < d.buffer.length) :
    d.sample i = d.buffer.get? i := by
  have hne : ¬ d.buffer.isEmpty := by
    cases hb : d.buffer with
    | nil => rw [hb] at h; simp at h
    | cons a l => simp
  unfold Delay.sample
  rw [if_neg hne, Nat.min_eq_left h.le]

theorem sample_out_of_range (d : Delay L) {i : ℕ}
    (h0 : 0 < d.buffer.length) (h : d.buffer.length ≤ i) :
    d.sample i = none := by
  have hne : ¬ d.buffer.isEmpty := by
    cases hb : d.buffer with
    | nil => rw [hb] at h0; simp at h0
    | cons a l => simp
  unfold Delay.sample
  rw [if_neg hne, Nat.min_eq_right h, List.get?_eq_none.mpr le_rfl]

/-- `Delay::tap` at an integer position `k ≤ capacity - 2` returns the buffer
entry at index `k - 1` (saturating at 0): the interpolation anchors are one
sample late relative to the requested position. -/
theorem tap_nat (d : Delay L) (k : ℕ) (hk : k + 2 ≤ d.buffer.length) :
    d.tap (k : ℚ) = (d.buffer.get? (k - 1)).map (fun v => (v, d)) := by
  have hklt : k < d.buffer.length := by omega
  have hwrap : rustRem ((k : ℚ) + (d.buffer.length : ℚ)) (d.buffer.length : ℚ)
      = (k : ℚ) :=
    rustRem_add_self (by positivity) (by exact_mod_cast hklt)
  have htr : ratTrunc (k : ℚ) = (k : ℤ) := by
    rw [ratTrunc_eq_floor (by positivity), Int.floor_natCast]
  have hv0 := List.get?_eq_get (l := d.buffer) (show k - 2 < d.buffer.length by omega)
  have hv1 := List.get?_eq_get (l := d.buffer) (show k - 1 < d.buffer.length by omega)
  have hv2 := List.get?_eq_get (l := d.buffer) hklt
  have hv3 := List.get?_eq_get (l := d.buffer) (show k + 1 < d.buffer.length by omega)
  simp only [Delay.tap, hwrap, Int.floor_natCast, Int.toNat_natCast, htr,
    sample_in_range d (show k - 2 < d.buffer.length by omega),
    sample_in_range d (show k - 1 < d.buffer.length by omega),
    sample_in_range d hklt,
    sample_in_range d (show k + 1 < d.buffer.length by omega),
    hv0, hv1, hv2, hv3, Int.cast_natCast, sub_self, Option.map_some]
  rw [cubic_at_zero]
  simp

/-- `Delay::tap` at the integer position `capacity - 1` panics: the fourth
anchor is read at index `capacity`, which `sample` clamps to `capacity`
(inclusive upper bound) and then indexes out of bounds. -/
theorem tap_last (d : Delay L) (k : ℕ) (hk : k + 1 = d.buffer.length) :
    d.tap (k : ℚ) = none := by
  have hklt : k < d.buffer.length := by omega
  have hwrap : rustRem ((k : ℚ) + (d.buffer.length : ℚ)) (d.buffer.length : ℚ)
      = (k : ℚ) :=
    rustRem_add_self (by positivity) (by exact_mod_cast hklt)
  have htr : ratTrunc (k : ℚ) = (k : ℤ) := by
    rw [ratTrunc_eq_floor (by positivity), Int.floor_natCast]
  have hv0 := List.get?_eq_get (l := d.buffer) (show k - 2 < d.buffer.length by omega)
  have hv1 := List.get?_eq_get (l := d.buffer) (show k - 1 < d.buffer.length by omega)
  have hv2 := List.get?_eq_get (l := d.buffer) hklt
  simp only [Delay.tap, hwrap, Int.floor_natCast, Int.toNat_natCast, htr,
    sample_in_range d (show k - 2 < d.buffer.length by omega),
    sample_in_range d (show k - 1 < d.buffer.length by omega),
    sample_in_range d hklt,
    sample_out_of_range (i := k + 1) d (by omega) (by omega),
    hv0, hv1, hv2]

/-- `Delay::tap` performs no write: a successful call returns the input
state. -/
theorem tap_state_eq (d : Delay L) (pos : ℚ) {r : Val L × Delay L}
    (h : d.tap pos = some r) : r.2 = d := by
  unfold Delay.tap at h
  dsimp only at h
  split at h
  · have := Option.some.inj h
    rw [← this]
  · exact Option.noConfusion h

/-- `Delay::get` performs no write: a successful call returns the input
state. -/
theorem get_state_eq (d : Delay L) (pos : Val L) {r : Val L × Delay L}
    (h : d.get pos = some r) : r.2 = d := by
  unfold Delay.get at h
  split at h
  · have := Option.some.inj h
    rw [← this]
  · exact Option.noConfusion h

/-- `push_next` on a non-empty buffer keeps the length. -/
theorem push_next_length (d : Delay L) (v : Val L) (h : 0 < d.buffer.length) :
    (d.push_next v).buffer.length = d.buffer.length := by
  simp only [Delay.push_next, List.length_cons, List.length_dropLast]
  omega

/-- Any single delay-line operation keeps a positive length. -/
theorem apply_length (d : Delay L) (op : DelayOp L) (h : 0 < d.buffer.length) :
    (DelayOp.apply d op).buffer.length = d.buffer.length := by
  cases op with
  | push v => exact push_next_length d v h
  | tapAt pos =>
    cases htap : d.tap pos with
    | none => simp [DelayOp.apply, htap]
    | some r => simp [DelayOp.apply, htap, tap_state_eq d pos htap]
  | getAt pos =>
    cases hget : d.get pos with
    | none => simp [DelayOp.apply, hget]
    | some r => simp [DelayOp.apply, hget, get_state_eq d pos hget]

/-- Any sequence of delay-line operations keeps a positive length. -/
theorem runOps_length (ops : List (DelayOp L)) :
    ∀ d : Delay L, 0 < d.buffer.length →
      (d.runOps ops).buffer.length = d.buffer.length := by
  induction ops with
  | nil => intro d _; rfl
  | cons op ops ih =>
    intro d h
    show ((DelayOp.apply d op).runOps ops).buffer.length = _
    rw [ih _ (by rw [apply_length d op h]; exact h), apply_length d op h]

end DelayLemmas

section HouseholderLemmas

/-- The Householder reflection preserves the sum of squares (exact
arithmetic): the cross term `2·s·Σv` cancels against `L·s²`. -/
theorem transform_sq_sum {L : ℕ} (hL : 0 < L) (v : Val L) :
    ∑ i, (Householder.transform v i) ^ 2 = ∑ i, (v i) ^ 2 := by
  have hL' : (L : ℚ) ≠ 0 := Nat.cast_ne_zero.mpr hL.ne'
  unfold Householder.transform
  have h1 : ∀ i : Fin L, (v i + (∑ j, v j) * (-2 / (L : ℚ))) ^ 2
      = (v i) ^ 2 + (2 * (-2 / (L : ℚ)) * (∑ j, v j)) * v i
        + ((∑ j, v j) * (-2 / (L : ℚ))) ^ 2 := fun i => by ring
  simp only [h1]
  rw [Finset.sum_add_distrib, Finset.sum_add_distrib, ← Finset.mul_sum,
    Finset.sum_const, Finset.card_univ, Fintype.card_fin, nsmul_eq_mul]
  field_simp
  ring

end HouseholderLemmas

namespace Hadamard

/-- Pointwise description of one butterfly. -/
theorem butterfly_apply (h j : ℕ) (hh : 0 < h) (a : ℕ → ℚ) (n : ℕ) :
    butterfly h j a n =
      if n = j then a j + a (j + h)
      else if n = j + h then a j - a (j + h)
      else a n := by
  unfold butterfly
  rcases eq_or_ne n (j + h) with rfl | hne1
  · rw [Function.update_same, if_neg (by omega), if_pos rfl]
  · rw [Function.update_noteq hne1]
    rcases eq_or_ne n j with rfl | hne2
    · rw [Function.update_same, if_pos rfl]
    · rw [Function.update_noteq hne2, if_neg hne2, if_neg hne1]

/-- Pointwise description of a prefix of the inner loop: after `k ≤ h`
butterflies starting at `i`, the pairs `(i+t, i+t+h)` for `t < k` hold
sum/difference, everything else is untouched. -/
theorem innerPartial (h i : ℕ) (hh : 0 < h) (a : ℕ → ℚ) :
    ∀ k, k ≤ h → ∀ n,
      ((List.range k).foldl (fun acc t => butterfly h (i + t) acc) a) n =
        if i ≤ n ∧ n < i + k then a n + a (n + h)
        else if i + h ≤ n ∧ n < i + h + k then a (n - h) - a n
        else a n := by
  intro k
  induction k with
  | zero =>
    intro _ n
    rw [List.range_zero, List.foldl_nil, if_neg (by omega), if_neg (by omega)]
  | succ k ih =>
    intro hk n
    have hkh : k < h := by omega
    rw [List.range_succ, List.foldl_append, List.foldl_cons, List.foldl_nil,
      butterfly_apply h (i + k) hh]
    have e1 : ((List.range k).foldl (fun acc t => butterfly h (i + t) acc) a)
        (i + k) = a (i + k) := by
      rw [ih (by omega) (i + k), if_neg (by omega), if_neg (by omega)]
    have e2 : ((List.range k).foldl (fun acc t => butterfly h (i + t) acc) a)
        (i + k + h) = a (i + k + h) := by
      rw [ih (by omega) (i + k + h), if_neg (by omega), if_neg (by omega)]
    by_cases hn1 : n = i + k
    · subst hn1
      rw [if_pos rfl, e1, e2, if_pos (by omega : i ≤ i + k ∧ i + k < i + (k + 1))]
    · by_cases hn2 : n = i + k + h
      · subst hn2
        rw [if_neg (by omega), if_pos rfl, e1, e2, if_neg (by omega),
          if_pos (by omega : i + h ≤ i + k + h ∧ i + k + h < i + h + (k + 1))]
        have hidx : i + k + h - h = i + k := by omega
        rw [hidx]
      · rw [if_neg hn1, if_neg hn2, ih (by omega) n]
        by_cases c1 : i ≤ n ∧ n < i + k
        · rw [if_pos c1, if_pos (by omega)]
        · rw [if_neg c1]
          by_cases c2 : i + h ≤ n ∧ n < i + h + k
          · rw [if_pos c2, if_neg (by omega), if_pos (by omega)]
          · rw [if_neg c2, if_neg (by omega), if_neg (by omega)]

/-- Pointwise description of the whole inner loop. -/
theorem innerPass_apply (h i : ℕ) (hh : 0 < h) (a : ℕ → ℚ) (n : ℕ) :
    innerPass h i a n =
      if i ≤ n ∧ n < i + h then a n + a (n + h)
      else if i + h ≤ n ∧ n < i + h + h then a (n - h) - a n
      else a n :=
  innerPartial h i hh a h le_rfl n

/-- Pointwise description of a prefix of the middle loop: after `t` blocks,
indices below `2*h*t` hold the butterfly output, the rest is untouched. -/
theorem midPartial (h : ℕ) (hh : 0 < h) (a : ℕ → ℚ) :
    ∀ t, ∀ n,
      ((List.range t).foldl (fun acc u => innerPass h (2 * h * u) acc) a) n =
        if n < 2 * h * t then
          (if n % (2 * h) < h then a n + a (n + h) else a (n - h) - a n)
        else a n := by
  intro t
  induction t with
  | zero =>
    intro n
    rw [List.range_zero, List.foldl_nil, if_neg (by omega)]
  | succ t ih =>
    intro n
    have hexp : 2 * h * (t + 1) = 2 * h * t + 2 * h := by ring
    rw [List.range_succ, List.foldl_append, List.foldl_cons, List.foldl_nil,
      innerPass_apply h _ hh, hexp]
    by_cases hb1 : 2 * h * t ≤ n ∧ n < 2 * h * t + h
    · have hmod : n % (2 * h) = n - 2 * h * t := by
        have hrepr : n = (n - 2 * h * t) + 2 * h * t := by omega
        conv_lhs => rw [hrepr]
        rw [Nat.add_mul_mod_self_left, Nat.mod_eq_of_lt (by omega)]
      rw [if_pos hb1, ih n, ih (n + h), if_neg (by omega), if_neg (by omega),
        if_pos (by omega : n < 2 * h * t + 2 * h), hmod, if_pos (by omega)]
    · by_cases hb2 : 2 * h * t + h ≤ n ∧ n < 2 * h * t + h + h
      · have hmod : n % (2 * h) = n - 2 * h * t := by
          have hrepr : n = (n - 2 * h * t) + 2 * h * t := by omega
          conv_lhs => rw [hrepr]
          rw [Nat.add_mul_mod_self_left, Nat.mod_eq_of_lt (by omega)]
        rw [if_neg (by omega), if_pos hb2, ih (n - h), ih n, if_neg (by omega),
          if_neg (by omega), if_pos (by omega : n < 2 * h * t + 2 * h), hmod,
          if_neg (by omega)]
      · rw [if_neg (by omega), if_neg (by omega), ih n]
        by_cases c1 : n < 2 * h * t
        · rw [if_pos c1, if_pos (show n < 2 * h * t + 2 * h by omega)]
        · rw [if_neg c1, if_neg (show ¬ n < 2 * h * t + 2 * h by omega)]

/-- Pointwise description of one full pass (`midPass`) at stride `h`, on a
lane count `L` divisible by `2*h`. -/
theorem midPass_apply (L h : ℕ) (hh : 0 < h) (hdvd : 2 * h ∣ L) (a : ℕ → ℚ)
    (n : ℕ) (hn : n < L) :
    midPass L h a n =
      if n % (2 * h) < h then a n + a (n + h) else a (n - h) - a n := by
  obtain ⟨m, rfl⟩ := hdvd
  have hcount : (2 * h * m + 2 * h - 1) / (2 * h) = m := by
    have hrepr : 2 * h * m + 2 * h - 1 = (2 * h - 1) + 2 * h * m := by omega
    rw [hrepr, Nat.add_mul_div_left _ _ (by omega : 0 < 2 * h),
      Nat.div_eq_of_lt (by omega), Nat.zero_add]
  unfold midPass
  rw [hcount, midPartial h hh a m n, if_pos hn]

/-- One block of a pass doubles the block's sum of squares:
`(x+y)² + (x−y)² = 2(x² + y²)` summed over the block's pairs. -/
theorem block_energy (h : ℕ) (hh : 0 < h) (a : ℕ → ℚ) (t : ℕ) :
    ∑ r ∈ Finset.range (2 * h),
        (if (2 * h * t + r) % (2 * h) < h
          then a (2 * h * t + r) + a (2 * h * t + r + h)
          else a (2 * h * t + r - h) - a (2 * h * t + r)) ^ 2
      = 2 * ∑ r ∈ Finset.range (2 * h), (a (2 * h * t + r)) ^ 2 := by
  have hmod : ∀ r, r < 2 * h → (2 * h * t + r) % (2 * h) = r := by
    intro r hr
    rw [Nat.add_comm, Nat.add_mul_mod_self_left, Nat.mod_eq_of_lt hr]
  rw [show 2 * h = h + h by ring] at hmod ⊢
  rw [Finset.sum_range_add, Finset.sum_range_add, mul_add]
  have left_eq : ∀ r ∈ Finset.range h,
      (if ((h + h) * t + r) % (h + h) < h
        then a ((h + h) * t + r) + a ((h + h) * t + r + h)
        else a ((h + h) * t + r - h) - a ((h + h) * t + r)) ^ 2
      = (a ((h + h) * t + r) + a ((h + h) * t + (h + r))) ^ 2 := by
    intro r hr
    have hr' := Finset.mem_range.mp hr
    rw [hmod r (by omega), if_pos hr',
      show (h + h) * t + r + h = (h + h) * t + (h + r) by omega]
  have right_eq : ∀ r ∈ Finset.range h,
      (if ((h + h) * t + (h + r)) % (h + h) < h
        then a ((h + h) * t + (h + r)) + a ((h + h) * t + (h + r) + h)
        else a ((h + h) * t + (h + r) - h) - a ((h + h) * t + (h + r))) ^ 2
      = (a ((h + h) * t + r) - a ((h + h) * t + (h + r))) ^ 2 := by
    intro r hr
    have hr' := Finset.mem_range.mp hr
    rw [hmod (h + r) (by omega), if_neg (by omega)]
    have hidx : (h + h) * t + (h + r) - h = (h + h) * t + r := by omega
    rw [hidx]
  rw [Finset.sum_congr rfl left_eq, Finset.sum_congr rfl right_eq,
    ← Finset.sum_add_distrib, Finset.mul_sum, Finset.mul_sum,
    ← Finset.sum_add_distrib]
  refine Finset.sum_congr rfl fun r hr => ?_
  ring

/-- A full pass doubles the energy. -/
theorem energy_midPass (L h : ℕ) (hh : 0 < h) (hdvd : 2 * h ∣ L)
    (a : ℕ → ℚ) : energy L (midPass L h a) = 2 * energy L a := by
  unfold energy
  rw [Finset.sum_congr rfl fun n hn => by
    rw [midPass_apply L h hh hdvd a n (Finset.mem_range.mp hn)]]
  obtain ⟨m, rfl⟩ := hdvd
  induction m with
  | zero => simp
  | succ m ih =>
    rw [show 2 * h * (m + 1) = 2 * h * m + 2 * h by ring,
      Finset.sum_range_add, Finset.sum_range_add, ih, block_energy h hh a m,
      mul_add]

/-- Energy growth through the doubling `while` loop: starting from stride
`2^j`, the remaining `K - j` passes multiply the energy by `2^(K-j)`. -/
theorem fwhtLoop_energy (K : ℕ) :
    ∀ fuel j a, j ≤ K → K - j ≤ fuel →
      energy (2 ^ K) (fwhtLoop (2 ^ K) fuel (2 ^ j) a)
        = 2 ^ (K - j) * energy (2 ^ K) a := by
  intro fuel
  induction fuel with
  | zero =>
    intro j a hj hfuel
    have : j = K := by omega
    subst this
    unfold fwhtLoop
    rw [Nat.sub_self, pow_zero, one_mul]
  | succ fuel ih =>
    intro j a hj hfuel
    unfold fwhtLoop
    by_cases hlt : 2 ^ j < 2 ^ K
    · have hjK : j < K := (Nat.pow_lt_pow_iff_right (by omega)).mp hlt
      rw [if_pos hlt, show 2 ^ j * 2 = 2 ^ (j + 1) by rw [pow_succ],
        ih (j + 1) _ (by omega) (by omega),
        energy_midPass _ _ (Nat.pos_pow_of_pos j (by omega))
          ⟨2 ^ (K - j - 1), by
            rw [show 2 * 2 ^ j = 2 ^ (j + 1) by rw [pow_succ]; ring,
              ← pow_add]
            congr 1
            omega⟩]
      rw [show K - j = (K - (j + 1)) + 1 by omega, pow_succ]
      ring
    · have : j = K := by
        have := (Nat.pow_le_pow_iff_right (a := 2) (by omega)).mp (not_lt.mp hlt)
        omega
      subst this
      rw [if_neg hlt, Nat.sub_self, pow_zero, one_mul]

end Hadamard

section BiquadLemmas

variable {L : ℕ}

theorem next_sample_fst (bq : Biquad L) (input : Val L) :
    (bq.next_sample input).1 = bq.state 0 + bq.params.b 0 * input := rfl

theorem next_sample_state (bq : Biquad L) (input : Val L) :
    (bq.next_sample input).2 =
      { bq with state :=
          ![bq.state 1 + bq.params.b 1 * input
              - bq.params.a 0 * (bq.state 0 + bq.params.b 0 * input),
            bq.params.b 2 * input
              - bq.params.a 1 * (bq.state 0 + bq.params.b 0 * input)] } := rfl

/-- Feeding zeros to a zero-state filter leaves it in the zero state. -/
theorem drive_splat_zero (p : BiquadParams L) (n : ℕ) :
    (Biquad.new L p).drive (splat L 0) n = Biquad.new L p := by
  induction n with
  | zero => rfl
  | succ n ih =>
    show (((Biquad.new L p).drive (splat L 0) n).next_sample (splat L 0)).2 = _
    rw [ih, next_sample_state]
    unfold Biquad.new
    congr 1
    funext j
    fin_cases j <;>
      · funext i
        simp [splat, Matrix.cons_val_zero, Matrix.cons_val_one, Matrix.head_cons]

/-- Closed form of the one-pole step response: driving a zero-state filter
with `a2 = b2 = 0` by a constant unit input leaves
`state0 = (b1 - a1*b0) * Σ_{i<n} (-a1)^i` and `state1 = 0`. -/
theorem drive_one_pole (a1 b0 b1 : ℚ) (n : ℕ) :
    (Biquad.new L ⟨![splat L a1, splat L 0],
        ![splat L b0, splat L b1, splat L 0]⟩).drive (splat L 1) n
      = { params := ⟨![splat L a1, splat L 0],
            ![splat L b0, splat L b1, splat L 0]⟩,
          state := ![splat L ((b1 - a1 * b0) * ∑ i ∈ Finset.range n, (-a1) ^ i),
            splat L 0] } := by
  induction n with
  | zero =>
    unfold Biquad.drive Biquad.new
    congr 1
    funext j
    fin_cases j <;>
      · funext i
        simp [splat, Matrix.cons_val_zero, Matrix.cons_val_one, Matrix.head_cons]
  | succ n ih =>
    show (((Biquad.new L _).drive (splat L 1) n).next_sample (splat L 1)).2 = _
    rw [ih, next_sample_state]
    congr 1
    funext j
    fin_cases j
    · funext i
      simp only [Fin.mk_zero, Fin.mk_one, Matrix.cons_val_zero,
        Matrix.cons_val_one, Matrix.head_cons, Pi.add_apply, Pi.sub_apply,
        Pi.mul_apply, splat]
      rw [geom_sum_succ]
      ring
    · funext i
      simp [splat, Matrix.cons_val_zero, Matrix.cons_val_one, Matrix.head_cons]

end BiquadLemmas

/-!
## Claim theorems

One theorem per claim of the specification review, with counterexamples and
witnesses where applicable.
-/

/-- C1 (counterexample): the claim `tap(k) = buffer[k]` fails.  On the buffer
`[10, 20, 30, 40]`, `tap(1)` returns `10 = buffer[0]`, not `20 = buffer[1]`:
the interpolation anchors are one sample late. -/
theorem C1_counterexample :
    Option.map Prod.fst
        ((Delay.mk [splat 1 10, splat 1 20, splat 1 30, splat 1 40]).tap 1)
      ≠ (Delay.mk [splat 1 10, splat 1 20, splat 1 30,
          splat 1 40]).buffer.get? 1 := by
  have h := tap_nat (Delay.mk [splat 1 10, splat 1 20, splat 1 30,
    splat 1 40]) 1 (by simp)
  rw [Nat.cast_one] at h
  intro hcontra
  rw [h] at hcontra
  simp only [show (1 : ℕ) - 1 = 0 from rfl, List.get?_cons_zero,
    List.get?_cons_succ, Option.map_map, Option.map_some,
    Function.comp] at hcontra
  have h0 := congrFun (Option.some.inj hcontra) 0
  norm_num [splat] at h0

/-- C1 (amended): for every buffer state and every integer position `k` with
`k + 2 ≤ capacity`, `DelayLine.tap(k)` returns exactly the buffer entry at
index `k - 1` (saturating at 0 for `k = 0`): the cubic interpolation is exact
at integer positions, but anchored one sample late; positions
`capacity - 1 ≤ k < capacity` panic instead (see C2). -/
theorem C1_tap_integer_exact (L : ℕ) (d : Delay L) (k : ℕ)
    (hk : k + 2 ≤ d.buffer.length) :
    d.tap (k : ℚ) = (d.buffer.get? (k - 1)).map (fun v => (v, d)) :=
  tap_nat d k hk

/-- Witness for C1: the amended theorem applied at the concrete buffer
`[10, 20, 30, 40]` and `k = 1`. -/
theorem C1_witness :
    (1 : ℕ) + 2 ≤ (Delay.mk [splat 1 10, splat 1 20, splat 1 30,
        splat 1 40]).buffer.length ∧
    (Delay.mk [splat 1 10, splat 1 20, splat 1 30, splat 1 40]).tap
        ((1 : ℕ) : ℚ)
      = ((Delay.mk [splat 1 10, splat 1 20, splat 1 30,
          splat 1 40]).buffer.get? (1 - 1)).map
          (fun v => (v, Delay.mk [splat 1 10, splat 1 20, splat 1 30,
            splat 1 40])) :=
  ⟨by simp, C1_tap_integer_exact 1 _ 1 (by simp)⟩

/-- C2: the claim that `tap` never indexes out of bounds fails — a code bug.
On a non-empty delay of capacity 4, the in-range position `3.0` panics: the
fourth anchor is read at index `4`, which `sample` clamps with the inclusive
bound `len` (`i.clamp(0, len)`) and then indexes out of bounds. -/
theorem C2_tap_panics :
    (Delay.new 1 4).buffer.length = 4 ∧ (Delay.new 1 4).tap 3 = none := by
  constructor
  · simp [Delay.new]
  · have h := tap_last (Delay.new 1 4) 3 (by simp [Delay.new])
    simpa using h

/-- C3 (counterexample): the damping filters are applied in the opposite
order to the claim.  With `damp_low = (b0 = 2, state0 = 1)` and
`damp_high = (b0 = 3, state0 = 5)` on a zero input, the code's damping stage
outputs `5 + 3·(1 + 2·0) = 8`, while the claimed composition
`damp_low.next_sample(damp_high.next_sample(fed))` gives
`1 + 2·(5 + 3·0) = 11`. -/
theorem C3_counterexample :
    (dampStage
        (Biquad.mk ⟨![0, 0], ![splat 2 2, 0, 0]⟩ ![splat 2 1, 0])
        (Biquad.mk ⟨![0, 0], ![splat 2 3, 0, 0]⟩ ![splat 2 5, 0])
        0 0 0).1
      ≠ (Biquad.next_sample
          (Biquad.mk ⟨![0, 0], ![splat 2 2, 0, 0]⟩ ![splat 2 1, 0])
          ((Biquad.next_sample
            (Biquad.mk ⟨![0, 0], ![splat 2 3, 0, 0]⟩ ![splat 2 5, 0])
            (0 + 0 * splat 2 0)).1)).1 := by
  intro hcontra
  have h0 := congrFun hcontra 0
  simp only [dampStage, Biquad.next_sample, splat, Matrix.cons_val_zero,
    Pi.add_apply, Pi.mul_apply, Pi.zero_apply] at h0
  norm_num at h0

/-- C3 (amended): in every process step the code computes
`damped = damp_high.next_sample(damp_low.next_sample(fed))` with
`fed = input + tapped * feedback` — the low-damping filter is applied first
and the high-damping filter second — and the two filters are updated
accordingly. -/
theorem C3_damping_order (damp_low damp_high : Biquad 2)
    (input tapped : Val 2) (feedback : ℚ) :
    (dampStage damp_low damp_high input tapped feedback).1
        = (damp_high.next_sample
            ((damp_low.next_sample
              (input + tapped * splat 2 feedback)).1)).1 ∧
    (dampStage damp_low damp_high input tapped feedback).2.1
        = (damp_low.next_sample (input + tapped * splat 2 feedback)).2 ∧
    (dampStage damp_low damp_high input tapped feedback).2.2
        = (damp_high.next_sample
            ((damp_low.next_sample
              (input + tapped * splat 2 feedback)).1)).2 :=
  ⟨rfl, rfl, rfl⟩

/-- C4: the Householder mix computes `v'[i] = v[i] + s` with
`s = sum(v) * (-2/L)`, and in exact arithmetic it preserves the sum of
squares. -/
theorem C4_householder_energy (L : ℕ) (hL : 0 < L) (v : Val L) :
    (∀ i, Householder.transform v i = v i + (∑ j, v j) * (-2 / (L : ℚ))) ∧
    ∑ i, (Householder.transform v i) ^ 2 = ∑ i, (v i) ^ 2 :=
  ⟨fun _ => rfl, transform_sq_sum hL v⟩

/-- Witness for C4 at `L = 2`, `v = (3, 4)`. -/
theorem C4_witness :
    0 < 2 ∧
    ((∀ i, Householder.transform (![3, 4] : Val 2) i
        = (![3, 4] : Val 2) i + (∑ j, (![3, 4] : Val 2) j) * (-2 / (2 : ℚ))) ∧
      ∑ i, (Householder.transform (![3, 4] : Val 2) i) ^ 2
        = ∑ i, ((![3, 4] : Val 2) i) ^ 2) :=
  ⟨by norm_num, C4_householder_energy 2 (by norm_num) ![3, 4]⟩

/-- C5: `Biquad::next_sample` is the claimed transposed direct-form II
update, per lane: `y = state0 + b0*input`,
`state0' = state1 + b1*input - a1*y`, `state1' = b2*input - a2*y`, and the
coefficients are untouched. -/
theorem C5_biquad_tdf2 (L : ℕ) (bq : Biquad L) (input : Val L) :
    (bq.next_sample input).1 = bq.state 0 + bq.params.b 0 * input ∧
    (bq.next_sample input).2.state 0
      = bq.state 1 + bq.params.b 1 * input
        - bq.params.a 0 * (bq.state 0 + bq.params.b 0 * input) ∧
    (bq.next_sample input).2.state 1
      = bq.params.b 2 * input
        - bq.params.a 1 * (bq.state 0 + bq.params.b 0 * input) ∧
    (bq.next_sample input).2.params = bq.params := by
  refine ⟨rfl, ?_, ?_, rfl⟩ <;> rw [next_sample_state] <;> simp

/-- C6: the claim (and the repository's own `step_lowpass_1p` test) says the
`lowpass_1p(fc = 0.3, q = 1)` step response converges to `1.0` within 5000
samples — a code bug.  For every `k` in an interval containing
`tan(0.3/2) ≈ 0.1511` (the value the source computes for the coefficient),
the output after the test drive (10 zeros then a unit step, sample 5000)
stays below `7/10` — the response converges to `2k/(k + 0.3) ≈ 0.67`, not
`1.0`, because `lowpass_1p` uses `fc` where the bilinear form needs `k` in
`a1 = -(1 - fc)/(1 + k)`. -/
theorem C6_lowpass_steady_state_wrong (k : ℚ) (hk1 : 3 / 20 ≤ k)
    (hk2 : k ≤ 4 / 25) :
    ((((Biquad.new 1 (BiquadParams.lowpass_1p 1 (3 / 10) 1 k)).drive
          (splat 1 0) 10).drive (splat 1 1) 4989).next_sample
        (splat 1 1)).1 0 ≤ 7 / 10 ∧
    1 / 4 ≤ |((((Biquad.new 1 (BiquadParams.lowpass_1p 1 (3 / 10) 1 k)).drive
          (splat 1 0) 10).drive (splat 1 1) 4989).next_sample
        (splat 1 1)).1 0 - 1| := by
  have hmain : ((((Biquad.new 1 (BiquadParams.lowpass_1p 1 (3 / 10) 1 k)).drive
        (splat 1 0) 10).drive (splat 1 1) 4989).next_sample
      (splat 1 1)).1 0 ≤ 7 / 10 := by
    have hparams : BiquadParams.lowpass_1p 1 (3 / 10) 1 k
        = ⟨![splat 1 (-(1 - 3 / 10) / (1 + k)), splat 1 0],
           ![splat 1 (k / (1 + k)), splat 1 (k / (1 + k)), splat 1 0]⟩ := rfl
    rw [hparams, drive_splat_zero, drive_one_pole, next_sample_fst]
    simp only [Matrix.cons_val_zero, Pi.add_apply, Pi.mul_apply, splat]
    have h710 : (1 : ℚ) - 3 / 10 = 7 / 10 := by norm_num
    rw [h710, neg_div ((1 : ℚ) + k) (7 / 10), neg_neg]
    set S := ∑ i ∈ Finset.range 4989, ((7 / 10 : ℚ) / (1 + k)) ^ i with hSdef
    set r := (7 / 10 : ℚ) / (1 + k) with hrdef
    have hu : (0 : ℚ) < 1 + k := by linarith
    have hr0 : 0 < r := div_pos (by norm_num) hu
    have hr1 : r < 1 := (div_lt_one hu).mpr (by linarith)
    have hS0 : 0 ≤ S := Finset.sum_nonneg fun i _ => pow_nonneg hr0.le i
    have hpow0 : 0 ≤ r ^ 4989 := pow_nonneg hr0.le _
    have hgeom : S * (1 - r) = 1 - r ^ 4989 := by
      have hg := geom_sum_mul r 4989
      have h2 : S * (1 - r) = -(S * (r - 1)) := by ring
      rw [h2, hSdef, hg]
      ring
    have h1r : (0 : ℚ) < 1 - r := by linarith
    have hSle : S ≤ 1 / (1 - r) := by
      rw [le_div_iff₀ h1r]
      linarith [hgeom]
    have hk0 : (0 : ℚ) < k := by linarith
    have hd0 : 0 ≤ (k / (1 + k) - (-r) * (k / (1 + k))) := by
      have he : k / (1 + k) - (-r) * (k / (1 + k))
          = k / (1 + k) * (1 + r) := by ring
      rw [he]
      exact mul_nonneg (div_nonneg hk0.le hu.le) (by linarith)
    have hdS : (k / (1 + k) - (-r) * (k / (1 + k))) * S
        ≤ (k / (1 + k) - (-r) * (k / (1 + k))) * (1 / (1 - r)) :=
      mul_le_mul_of_nonneg_left hSle hd0
    have hkp : (0 : ℚ) < k + 3 / 10 := by linarith
    have hfinal : (k / (1 + k) - (-r) * (k / (1 + k))) * (1 / (1 - r))
        + k / (1 + k) * 1 ≤ 7 / 10 := by
      have hden : 1 - r = (k + 3 / 10) / (1 + k) := by
        rw [hrdef]
        field_simp
        ring
      rw [hden, one_div_div, hrdef]
      have heq : (k / (1 + k) - (-((7 / 10 : ℚ) / (1 + k))) * (k / (1 + k)))
            * ((1 + k) / (k + 3 / 10)) + k / (1 + k) * 1
          = 2 * k / (k + 3 / 10) := by
        field_simp
        ring
      rw [heq, div_le_iff₀ hkp]
      linarith
    linarith
  refine ⟨hmain, ?_⟩
  rw [abs_of_nonpos (by linarith)]
  linarith

/-- Witness for C6 at `k = 151/1000` (the interval member closest to the
`f32` value of `tan(0.15)` at this precision). -/
theorem C6_witness :
    (3 / 20 : ℚ) ≤ 151 / 1000 ∧ (151 / 1000 : ℚ) ≤ 4 / 25 ∧
    (((((Biquad.new 1 (BiquadParams.lowpass_1p 1 (3 / 10) 1
            (151 / 1000))).drive (splat 1 0) 10).drive (splat 1 1)
          4989).next_sample (splat 1 1)).1 0 ≤ 7 / 10 ∧
      1 / 4 ≤ |((((Biquad.new 1 (BiquadParams.lowpass_1p 1 (3 / 10) 1
            (151 / 1000))).drive (splat 1 0) 10).drive (splat 1 1)
          4989).next_sample (splat 1 1)).1 0 - 1|) :=
  ⟨by norm_num, by norm_num,
    C6_lowpass_steady_state_wrong (151 / 1000) (by norm_num) (by norm_num)⟩

/-- C7: the claim that `PitchShifter.next_sample` with `pitch_ratio = 1`
passes the input through at a constant delay fails — a code bug.  On a
shifter of capacity 4 the fourth call taps position `3 = capacity - 1`,
whose fourth anchor indexes out of bounds (the C2 slip), so the run panics;
before that the outputs are the frozen first input, not a delayed copy. -/
theorem C7_pitch_unity_run_panics :
    (PitchShifter.new 1 4).run 44100 1
      [splat 1 1, splat 1 2, splat 1 3, splat 1 4] = none := by
  have t0 : (Delay.new 1 4).tap 0 = some (0, Delay.new 1 4) := by
    have h := tap_nat (Delay.new 1 4) 0 (by simp [Delay.new])
    simpa [Delay.new] using h
  have t1 : (Delay.mk [splat 1 1, 0, 0, 0]).tap 1
      = some (splat 1 1, Delay.mk [splat 1 1, 0, 0, 0]) := by
    have h := tap_nat (Delay.mk [splat 1 1, 0, 0, 0]) 1 (by simp)
    simpa using h
  have t2 : (Delay.mk [splat 1 2, splat 1 1, 0, 0]).tap 2
      = some (splat 1 1, Delay.mk [splat 1 2, splat 1 1, 0, 0]) := by
    have h := tap_nat (Delay.mk [splat 1 2, splat 1 1, 0, 0]) 2 (by simp)
    simpa using h
  have t3 : (Delay.mk [splat 1 3, splat 1 2, splat 1 1, 0]).tap 3 = none := by
    have h := tap_last (Delay.mk [splat 1 3, splat 1 2, splat 1 1, 0]) 3
      (by simp)
    simpa using h
  have s0 : (PitchShifter.new 1 4).next_sample 44100 1 (splat 1 1)
      = some (0, ⟨Delay.mk [splat 1 1, 0, 0, 0], 1⟩) := by
    unfold PitchShifter.next_sample PitchShifter.new
    rw [t0]
    norm_num [Delay.new, Delay.push_next, List.replicate, List.dropLast]
  have s1 : (PitchShifter.mk (Delay.mk [splat 1 1, 0, 0, 0])
        1).next_sample 44100 1 (splat 1 2)
      = some (splat 1 1, ⟨Delay.mk [splat 1 2, splat 1 1, 0, 0], 2⟩) := by
    unfold PitchShifter.next_sample
    rw [t1]
    norm_num [Delay.push_next, List.dropLast]
  have s2 : (PitchShifter.mk (Delay.mk [splat 1 2, splat 1 1, 0, 0])
        2).next_sample 44100 1 (splat 1 3)
      = some (splat 1 1, ⟨Delay.mk [splat 1 3, splat 1 2, splat 1 1, 0],
          3⟩) := by
    unfold PitchShifter.next_sample
    rw [t2]
    norm_num [Delay.push_next, List.dropLast]
  have s3 : (PitchShifter.mk (Delay.mk [splat 1 3, splat 1 2, splat 1 1, 0])
        3).next_sample 44100 1 (splat 1 4) = none := by
    unfold PitchShifter.next_sample
    rw [t3]
  show (PitchShifter.new 1 4).run 44100 1 _ = none
  unfold PitchShifter.run
  rw [s0]
  unfold PitchShifter.run
  rw [s1]
  unfold PitchShifter.run
  rw [s2]
  unfold PitchShifter.run
  rw [s3]

/-- C8 (counterexample): `fwht` does not preserve the sum of squares.  On
`L = 2` lanes with `v = (1, 0)`, `fwht(v) = (1, 1)`: the energy doubles
(`2 ≠ 1`) — the butterfly has no `1/√2` normalization. -/
theorem C8_counterexample :
    energy 2 (Hadamard.fwht 2 (fun n => if n = 0 then 1 else 0))
      ≠ energy 2 (fun n => if n = 0 then 1 else 0) := by
  have hf : Hadamard.fwht 2 (fun n => if n = 0 then 1 else 0)
      = Hadamard.midPass 2 1 (fun n => if n = 0 then 1 else 0) := rfl
  have e0 : Hadamard.midPass 2 1 (fun n => if n = 0 then 1 else 0) 0 = 1 := by
    rw [Hadamard.midPass_apply 2 1 one_pos (by norm_num) _ 0 (by norm_num)]
    norm_num
  have e1 : Hadamard.midPass 2 1 (fun n => if n = 0 then 1 else 0) 1 = 1 := by
    rw [Hadamard.midPass_apply 2 1 one_pos (by norm_num) _ 1 (by norm_num)]
    norm_num
  rw [hf]
  unfold energy
  rw [Finset.sum_range_succ, Finset.sum_range_succ, Finset.sum_range_zero,
    Finset.sum_range_succ, Finset.sum_range_succ, Finset.sum_range_zero,
    e0, e1]
  norm_num

/-- C8 (amended): over a power-of-two lane count `L = 2^K`, the Hadamard
butterfly transform scales the sum of squares by exactly `L` (each of the
`K` passes doubles it); it is energy-preserving only up to that fixed
factor. -/
theorem C8_fwht_energy_scales (K : ℕ) (a : ℕ → ℚ) :
    energy (2 ^ K) (Hadamard.fwht (2 ^ K) a)
      = (2 ^ K : ℚ) * energy (2 ^ K) a := by
  unfold Hadamard.fwht
  have h := Hadamard.fwhtLoop_energy K (2 ^ K) 0 a (Nat.zero_le K)
    (by have := Nat.lt_two_pow K; omega)
  rw [pow_zero] at h
  rw [h, Nat.sub_zero]

/-- C9 (counterexample): the length invariant fails at the edge case
`capacity = 0`: one push grows the buffer to length 1 (`pop_back` on an
empty `VecDeque` is a no-op while `push_front` still inserts). -/
theorem C9_counterexample :
    ((Delay.new 1 0).runOps [DelayOp.push 0]).buffer.length ≠ 0 := by
  simp [Delay.runOps, DelayOp.apply, Delay.push_next, Delay.new]

/-- C9 (amended): for every capacity `≥ 1`, every sequence of push/tap/get
operations on a freshly constructed delay line keeps the buffer length equal
to the capacity (each push inserts at the front and discards the oldest
entry; reads leave the buffer unchanged). -/
theorem C9_length_invariant (L cap : ℕ) (hcap : 1 ≤ cap)
    (ops : List (DelayOp L)) :
    ((Delay.new L cap).runOps ops).buffer.length = cap := by
  have hlen : (Delay.new L cap).buffer.length = cap := by simp [Delay.new]
  rw [runOps_length ops (Delay.new L cap) (by omega), hlen]

/-- Witness for C9 at capacity 2 with a push, a tap and a get. -/
theorem C9_witness :
    1 ≤ 2 ∧
    ((Delay.new 1 2).runOps
        [DelayOp.push (splat 1 5), DelayOp.tapAt 0,
          DelayOp.getAt (splat 1 0)]).buffer.length = 2 :=
  ⟨by norm_num, C9_length_invariant 1 2 (by norm_num) _⟩

/-- C10: the read operations `tap` and `get` are pure: whenever they return
a value, the delay-line state they return is the input state (no buffer
mutation despite `&mut self`). -/
theorem C10_reads_pure :
    (∀ (L : ℕ) (d : Delay L) (pos : ℚ) (r : Val L × Delay L),
        d.tap pos = some r → r.2 = d) ∧
    (∀ (L : ℕ) (d : Delay L) (pos : Val L) (r : Val L × Delay L),
        d.get pos = some r → r.2 = d) :=
  ⟨fun _ d pos _ h => tap_state_eq d pos h,
    fun _ d pos _ h => get_state_eq d pos h⟩

/-- Witness for C10: a concrete successful `tap` on a capacity-4 delay, with
the purity conclusion instantiated there. -/
theorem C10_witness :
    (Delay.new 1 4).tap 0 = some (0, Delay.new 1 4) ∧
    ((0 : Val 1), Delay.new 1 4).2 = Delay.new 1 4 := by
  have t0 : (Delay.new 1 4).tap 0 = some (0, Delay.new 1 4) := by
    have h := tap_nat (Delay.new 1 4) 0 (by simp [Delay.new])
    simpa [Delay.new] using h
  exact ⟨t0, C10_reads_pure.1 1 (Delay.new 1 4) 0 _ t0⟩
